import Mathlib

/-!
Verification of the `Rational` fraction class from `src/dz2211.cpp`.

The C++ class stores `numerator_ : int64_t` and `denominator_ : uint64_t`.
We embed machine integers shallowly:

* a signed 64-bit value is an `Int` in `[-2^63, 2^63)`; two's-complement
  wraparound (the de-facto behavior of the reference implementation for
  signed overflow, and the defined behavior for unsigned-to-signed
  conversion) is `toI64`;
* an unsigned 64-bit value is a `Nat` below `2^64`; conversion of any
  integer expression into it (C++ "usual arithmetic conversions" to
  `uint64_t`, which are reductions mod 2^64) is `toU64`.

All mixed `int64_t`/`uint64_t` expressions of the source are translated
by first writing the exact mathematical value and then applying `toI64` /
`toU64` at exactly the points where the C++ program converts or stores:
this is sound because both conversions only depend on the argument
mod 2^64 and every intermediate C++ computation is itself mod 2^64.
-/

def i64Min : Int := -(2 ^ 63)

def i64Max : Int := 2 ^ 63 - 1

/-- Reduction of an integer into the signed 64-bit range `[-2^63, 2^63)`
(two's-complement wraparound). -/
def toI64 (x : Int) : Int := (x + 2 ^ 63) % 2 ^ 64 - 2 ^ 63

/-- Reduction of an integer into the unsigned 64-bit range (mod 2^64). -/
def toU64 (x : Int) : Nat := (x % 2 ^ 64).toNat

/-- `x` is representable as a signed 64-bit integer. -/
def inI64 (x : Int) : Prop := -(2 ^ 63) ≤ x ∧ x < 2 ^ 63

instance (x : Int) : Decidable (inI64 x) := by unfold inI64; infer_instance

/-- The `Rational` value type: `numerator_ : int64_t`, `denominator_ : uint64_t`. -/
structure Rational where
  numerator_ : Int
  denominator_ : Nat
deriving DecidableEq

/-- Machine well-formedness: the fields fit their C++ types. -/
def WF (x : Rational) : Prop := inI64 x.numerator_ ∧ x.denominator_ < 2 ^ 64

instance (x : Rational) : Decidable (WF x) := by unfold WF; infer_instance

/-- `Rational::mul_overflow(int64_t a, int64_t b)` (src lines 13-21):
`a * b` is computed with wraparound, then compared by `result / b != a`
(`/` is C++ truncated division, `Int.tdiv`), with the two `MIN_SIGNED`
special cases checked first and zero operands returning false. -/
def mul_overflow (a b : Int) : Bool :=
  if a = 0 ∨ b = 0 then false
  else
    let result := toI64 (a * b)
    if a = i64Min ∧ b = -1 then true
    else if b = i64Min ∧ a = -1 then true
    else decide (b ≠ 0 ∧ result.tdiv b ≠ a)

/-- `Rational::add_overflow(int64_t a, int64_t b)` (src lines 23-29):
sign-of-wrapped-result analysis. -/
def add_overflow (a b : Int) : Bool :=
  let result := toI64 (a + b)
  if 0 < a ∧ 0 < b ∧ result < 0 then true
  else if a < 0 ∧ b < 0 ∧ 0 < result then true
  else false

/-- `Rational::reduce()` (src lines 31-40).  `std::gcd(std::abs(numerator_),
denominator_)` is computed in `uint64_t` (the common type); `std::abs` wraps
`MIN_SIGNED` to itself, whose `uint64_t` image is `2^63 = |MIN_SIGNED|`, so
the first argument is exactly `n.natAbs`.  The result is stored in an
`int64_t gcd_val` (hence `toI64 g`); `numerator_ /= gcd_val` is signed
truncated division, while `denominator_ /= gcd_val` converts `gcd_val`
back to `uint64_t`. -/
def reduce (n : Int) (d : Nat) : Int × Nat :=
  if n = 0 then (0, 1)
  else
    let g : Nat := Nat.gcd n.natAbs d
    (n.tdiv (toI64 g), d / toU64 (toI64 g))

/-- The constructor `Rational(int64_t num, int64_t denom)` (src lines 77-89):
branch on the sign of `denom`, negate in `int64_t` (with wraparound) when
`denom < 0`, store the denominator as `uint64_t`, then `reduce()`. -/
def Rational.make (num denom : Int) : Rational :=
  let n : Int := if denom = 0 then 0 else if denom < 0 then toI64 (-num) else num
  let d : Nat := if denom = 0 then 1 else if denom < 0 then toU64 (-denom) else denom.toNat
  ⟨(reduce n d).1, (reduce n d).2⟩

/-- The constructor `Rational(int64_t n)` (src line 75): no reduction. -/
def Rational.ofInt (n : Int) : Rational := ⟨n, 1⟩

/-- `Rational::operator-()` (src lines 106-108): `Rational(-numerator_,
denominator_)`; the `uint64_t` denominator is converted to the constructor's
`int64_t` parameter. -/
def Rational.neg (x : Rational) : Rational :=
  Rational.make (toI64 (-x.numerator_)) (toI64 (x.denominator_ : Int))

/-- `Rational::add_safe` (src lines 42-70).  `simp_den1/2` are `uint64_t`;
each `mul_overflow` call converts its `uint64_t` argument to `int64_t`;
`term1/2` are `int64_t` variables assigned from `uint64_t` products;
all three early returns build the same unreduced fallback, whose
numerator and denominator are computed mod 2^64 and passed to the
`int64_t` constructor parameters. -/
def add_safe (a b : Rational) : Rational :=
  let g := Nat.gcd a.denominator_ b.denominator_
  let sd1 := a.denominator_ / g
  let sd2 := b.denominator_ / g
  if mul_overflow a.numerator_ (toI64 (sd2 : Int)) then
    Rational.make
      (toI64 (a.numerator_ * (b.denominator_ : Int) + b.numerator_ * (a.denominator_ : Int)))
      (toI64 ((a.denominator_ : Int) * (b.denominator_ : Int)))
  else
    let term1 := toI64 (a.numerator_ * (sd2 : Int))
    if mul_overflow b.numerator_ (toI64 (sd1 : Int)) then
      Rational.make
        (toI64 (a.numerator_ * (b.denominator_ : Int) + b.numerator_ * (a.denominator_ : Int)))
        (toI64 ((a.denominator_ : Int) * (b.denominator_ : Int)))
    else
      let term2 := toI64 (b.numerator_ * (sd1 : Int))
      if add_overflow term1 term2 then
        Rational.make
          (toI64 (a.numerator_ * (b.denominator_ : Int) + b.numerator_ * (a.denominator_ : Int)))
          (toI64 ((a.denominator_ : Int) * (b.denominator_ : Int)))
      else
        Rational.make (toI64 (term1 + term2)) (toI64 ((a.denominator_ : Int) * (sd2 : Int)))

/-- `Rational::operator+` (src lines 110-121): three naive overflow checks
(each denominator converted to `int64_t`); on any hit, delegate to
`add_safe`; otherwise the unreduced cross-multiplication, computed in
`uint64_t` and passed to the `int64_t` constructor parameters. -/
def Rational.add (x y : Rational) : Rational :=
  if mul_overflow x.numerator_ (toI64 (y.denominator_ : Int)) ||
      mul_overflow y.numerator_ (toI64 (x.denominator_ : Int)) ||
      mul_overflow (toI64 (x.denominator_ : Int)) (toI64 (y.denominator_ : Int)) then
    add_safe x y
  else
    Rational.make
      (toI64 (x.numerator_ * (y.denominator_ : Int) + y.numerator_ * (x.denominator_ : Int)))
      (toI64 ((x.denominator_ : Int) * (y.denominator_ : Int)))

/-- `Rational::operator-` (binary, src lines 128-130): `*this + (-other)`. -/
def Rational.sub (x y : Rational) : Rational := x.add y.neg

/-- `Rational::operator*` (src lines 137-157).  In the slow path the
compound divisions `a.numerator_ /= gcd1` and `b.numerator_ /= gcd2` are
performed in `uint64_t` (the numerator is converted to `uint64_t`, divided,
and the quotient converted back to `int64_t`). -/
def Rational.mul (x y : Rational) : Rational :=
  if mul_overflow x.numerator_ y.numerator_ ||
      mul_overflow (toI64 (x.denominator_ : Int)) (toI64 (y.denominator_ : Int)) then
    let gcd1 := Nat.gcd x.numerator_.natAbs y.denominator_
    let gcd2 := Nat.gcd y.numerator_.natAbs x.denominator_
    let an := toI64 ((toU64 x.numerator_ / gcd1 : Nat) : Int)
    let bd := y.denominator_ / gcd1
    let bn := toI64 ((toU64 y.numerator_ / gcd2 : Nat) : Int)
    let ad := x.denominator_ / gcd2
    Rational.make (toI64 (an * bn)) (toI64 ((ad : Int) * (bd : Int)))
  else
    Rational.make (toI64 (x.numerator_ * y.numerator_))
      (toI64 ((x.denominator_ : Int) * (y.denominator_ : Int)))

/-- `Rational::operator/` (src lines 164-169): zero-numerator divisor gives
`Rational(0)`, otherwise multiply by `Rational(other.denominator_,
other.numerator_)` (the `uint64_t` denominator converted to the `int64_t`
numerator parameter). -/
def Rational.div (x y : Rational) : Rational :=
  if y.numerator_ = 0 then Rational.ofInt 0
  else x.mul (Rational.make (toI64 (y.denominator_ : Int)) y.numerator_)

/-- `Rational::operator<` (src lines 184-186): both cross products
`numerator_ * other.denominator_` are computed in `uint64_t` (the
numerators are converted to unsigned), and the comparison is an
unsigned 64-bit comparison. -/
def Rational.lt (x y : Rational) : Bool :=
  decide (toU64 (x.numerator_ * (y.denominator_ : Int)) <
    toU64 (y.numerator_ * (x.denominator_ : Int)))

/-- `Rational::operator<=` (src lines 188-190). -/
def Rational.le (x y : Rational) : Bool := x.lt y || decide (x = y)

/-- `Rational::operator>` (src lines 192-194). -/
def Rational.gt (x y : Rational) : Bool := !(x.le y)

/-- `Rational::operator>=` (src lines 196-198). -/
def Rational.ge (x y : Rational) : Bool := !(x.lt y)

/-- `Rational::str()` (src lines 98-104): `std::to_string` renders the
`int64_t` numerator and `uint64_t` denominator in decimal. -/
def Rational.str (x : Rational) : String :=
  if x.denominator_ = 1 then toString x.numerator_
  else toString x.numerator_ ++ "/" ++ toString x.denominator_

/-- The representation invariants of §3 of the spec: positive denominator,
lowest terms, and canonical zero `0/1`. -/
def Valid (x : Rational) : Prop :=
  0 < x.denominator_ ∧ Nat.gcd x.numerator_.natAbs x.denominator_ = 1 ∧
    (x.numerator_ = 0 → x.denominator_ = 1)

instance (x : Rational) : Decidable (Valid x) := by unfold Valid; infer_instance

/-- The §4.3 addition algorithm of the spec, written flat (one disjunctive
fallback guard, exact integer expressions wrapped at the C++ conversion
points), with the reduced denominators `sd1 = b/g`, `sd2 = d/g` for
`g = gcd(b, d)`: if either reduced-route multiplication (on the W-bit
converted `sd` values) or the sum `term1 + term2` would overflow, the
result is the unreduced cross-multiplication `(a*d + c*b)/(b*d)` with
wraparound, normalized; otherwise `(term1 + term2)/(b*sd2)`, normalized. -/
def addSafeSpec (x y : Rational) : Rational :=
  let g : Nat := Nat.gcd x.denominator_ y.denominator_
  let sd1 : Nat := x.denominator_ / g
  let sd2 : Nat := y.denominator_ / g
  if mul_overflow x.numerator_ (toI64 (sd2 : Int)) = true ∨
      mul_overflow y.numerator_ (toI64 (sd1 : Int)) = true ∨
      add_overflow (toI64 (x.numerator_ * (sd2 : Int)))
        (toI64 (y.numerator_ * (sd1 : Int))) = true then
    Rational.make
      (toI64 (x.numerator_ * (y.denominator_ : Int) + y.numerator_ * (x.denominator_ : Int)))
      (toI64 ((x.denominator_ : Int) * (y.denominator_ : Int)))
  else
    Rational.make (toI64 (x.numerator_ * (sd2 : Int) + y.numerator_ * (sd1 : Int)))
      (toI64 ((x.denominator_ : Int) * (sd2 : Int)))

/-- The amended §4.3 claim for `operator+` as one flat description: the
reduced route runs only when one of the three naive overflow checks (on
`a*d`, `c*b`, `b*d`, denominators W-bit converted) fires; otherwise the
result is the unreduced cross-multiplication with wraparound, normalized. -/
def addSpec (x y : Rational) : Rational :=
  if mul_overflow x.numerator_ (toI64 (y.denominator_ : Int)) = true ∨
      mul_overflow y.numerator_ (toI64 (x.denominator_ : Int)) = true ∨
      mul_overflow (toI64 (x.denominator_ : Int)) (toI64 (y.denominator_ : Int)) = true then
    addSafeSpec x y
  else
    Rational.make
      (toI64 (x.numerator_ * (y.denominator_ : Int) + y.numerator_ * (x.denominator_ : Int)))
      (toI64 ((x.denominator_ : Int) * (y.denominator_ : Int)))


/-! ### Arithmetic facts about the wraparound conversions -/

theorem inI64_toI64 (x : Int) : inI64 (toI64 x) := by
  unfold toI64 inI64
  have h1 := Int.emod_nonneg (x + 2 ^ 63) (b := 2 ^ 64) (by norm_num)
  have h2 := Int.emod_lt_of_pos (x + 2 ^ 63) (b := 2 ^ 64) (by norm_num)
  omega

theorem toI64_eq_self {x : Int} (h : inI64 x) : toI64 x = x := by
  unfold toI64
  unfold inI64 at h
  rw [Int.emod_eq_of_lt (by omega) (by omega)]
  omega

theorem toI64_sub_dvd (x : Int) : (2 ^ 64 : Int) ∣ (toI64 x - x) := by
  have h := Int.emod_def (x + 2 ^ 63) (2 ^ 64)
  unfold toI64
  exact ⟨-((x + 2 ^ 63) / 2 ^ 64), by omega⟩

theorem toI64_congr {a b : Int} (h : (2 ^ 64 : Int) ∣ (a - b)) : toI64 a = toI64 b := by
  obtain ⟨k, hk⟩ := h
  have ha : a = b + 2 ^ 64 * k := by omega
  rw [ha]
  unfold toI64
  have h2 : b + 2 ^ 64 * k + 2 ^ 63 = b + 2 ^ 63 + 2 ^ 64 * k := by ring
  rw [h2, Int.add_mul_emod_self_left]

theorem eq_of_dvd_sub_inI64 {u v : Int} (h : (2 ^ 64 : Int) ∣ (u - v))
    (hu : inI64 u) (hv : inI64 v) : u = v := by
  obtain ⟨k, hk⟩ := h
  unfold inI64 at hu hv
  omega

theorem toU64_lt (x : Int) : toU64 x < 2 ^ 64 := by
  unfold toU64
  have h1 := Int.emod_nonneg x (b := 2 ^ 64) (by norm_num)
  have h2 := Int.emod_lt_of_pos x (b := 2 ^ 64) (by norm_num)
  omega

theorem toU64_sub_dvd (x : Int) : (2 ^ 64 : Int) ∣ ((toU64 x : Int) - x) := by
  unfold toU64
  have h1 := Int.emod_nonneg x (b := 2 ^ 64) (by norm_num)
  have h := Int.emod_def x (2 ^ 64)
  exact ⟨-(x / 2 ^ 64), by omega⟩

theorem toU64_congr {a b : Int} (h : (2 ^ 64 : Int) ∣ (a - b)) : toU64 a = toU64 b := by
  obtain ⟨k, hk⟩ := h
  have ha : a = b + 2 ^ 64 * k := by omega
  rw [ha]
  unfold toU64
  have h2 : b + 2 ^ 64 * k = b + 2 ^ 64 * k := rfl
  have h3 : (b + 2 ^ 64 * k) % 2 ^ 64 = b % 2 ^ 64 := by
    have : b + 2 ^ 64 * k = b + k * 2 ^ 64 := by ring
    rw [this, Int.add_mul_emod_self]
  rw [h3]

theorem toU64_coe {n : Nat} (h : n < 2 ^ 64) : toU64 (n : Int) = n := by
  unfold toU64
  rw [Int.emod_eq_of_lt (by positivity) (by exact_mod_cast h)]
  exact Int.toNat_natCast n

theorem toU64_toI64 (x : Int) : toU64 (toI64 x) = toU64 x :=
  toU64_congr (toI64_sub_dvd x)

theorem toI64_toU64 (x : Int) : toI64 ((toU64 x : Int)) = toI64 x :=
  toI64_congr (toU64_sub_dvd x)

theorem toI64_add_toI64 (a b : Int) : toI64 (toI64 a + toI64 b) = toI64 (a + b) := by
  apply toI64_congr
  have h1 := toI64_sub_dvd a
  have h2 := toI64_sub_dvd b
  have : toI64 a + toI64 b - (a + b) = (toI64 a - a) + (toI64 b - b) := by ring
  rw [this]
  exact dvd_add h1 h2

theorem toI64_mul_toI64_left (a b : Int) : toI64 (toI64 a * b) = toI64 (a * b) := by
  apply toI64_congr
  have h1 := toI64_sub_dvd a
  have : toI64 a * b - a * b = (toI64 a - a) * b := by ring
  rw [this]
  exact Dvd.dvd.mul_right h1 b

/-! ### Correctness of `mul_overflow` -/

theorem natAbs_tmod_eq (a b : Int) : (Int.tmod a b).natAbs = a.natAbs % b.natAbs := by
  rcases a with m | m <;> rcases b with n | n <;>
    simp only [Int.tmod, Int.natAbs_neg, Int.natAbs_ofNat] <;>
    simp [Int.natAbs]

/-- `mul_overflow` decides exactly whether the mathematical product of two
in-range signed 64-bit values is representable. -/
theorem mul_overflow_iff {a b : Int} (ha : inI64 a) (hb : inI64 b) :
    mul_overflow a b = true ↔ ¬ inI64 (a * b) := by
  unfold mul_overflow
  by_cases h0 : a = 0 ∨ b = 0
  · rw [if_pos h0]
    simp only [Bool.false_eq_true, false_iff, not_not]
    rcases h0 with h | h <;> rw [h]
    · rw [Int.zero_mul]; decide
    · rw [Int.mul_zero]; decide
  · rw [if_neg h0]
    push_neg at h0
    obtain ⟨ha0, hb0⟩ := h0
    by_cases hs1 : a = i64Min ∧ b = -1
    · rw [if_pos hs1]
      obtain ⟨rfl, rfl⟩ := hs1
      simp only [true_iff]
      unfold i64Min inI64
      intro hcontra
      omega
    · rw [if_neg hs1]
      by_cases hs2 : b = i64Min ∧ a = -1
      · rw [if_pos hs2]
        obtain ⟨rfl, rfl⟩ := hs2
        simp only [true_iff]
        unfold i64Min inI64
        intro hcontra
        omega
      · rw [if_neg hs2]
        rw [decide_eq_true_eq]
        constructor
        · rintro ⟨-, hne⟩ hrep
          apply hne
          rw [toI64_eq_self hrep]
          exact Int.mul_tdiv_cancel a hb0
        · intro hnrep
          refine ⟨hb0, fun heq => hnrep ?_⟩
          have hwr : inI64 (toI64 (a * b)) := inI64_toI64 _
          obtain ⟨k, hk⟩ := toI64_sub_dvd (a * b)
          have hid := Int.tdiv_add_tmod (toI64 (a * b)) b
          rw [heq] at hid
          have habs := natAbs_tmod_eq (toI64 (a * b)) b
          have hmlt : (toI64 (a * b)).natAbs % b.natAbs < b.natAbs :=
            Nat.mod_lt _ (by omega)
          rw [← habs] at hmlt
          unfold inI64 at ha hb hwr ⊢
          have hba : b * a = a * b := by ring
          rw [hba] at hid
          omega

/-! ### Normalization establishes the representation invariants -/

theorem reduce_spec {n : Int} {d : Nat} (hn : inI64 n) (hd : 0 < d) :
    Valid ⟨(reduce n d).1, (reduce n d).2⟩ ∧ inI64 (reduce n d).1 ∧ (reduce n d).2 ≤ d := by
  by_cases h0 : n = 0
  · subst h0
    have hr : reduce 0 d = (0, 1) := by unfold reduce; simp
    rw [hr]
    exact ⟨by decide, by decide, hd⟩
  · unfold reduce
    simp only [if_neg h0]
    have hnabs : n.natAbs ≤ 2 ^ 63 := by unfold inI64 at hn; omega
    have hdvd1 : Nat.gcd n.natAbs d ∣ n.natAbs := Nat.gcd_dvd_left _ _
    have hdvd2 : Nat.gcd n.natAbs d ∣ d := Nat.gcd_dvd_right _ _
    have hgpos : 0 < Nat.gcd n.natAbs d := Nat.gcd_pos_of_pos_right _ hd
    have hgle : Nat.gcd n.natAbs d ≤ 2 ^ 63 :=
      le_trans (Nat.le_of_dvd (Int.natAbs_pos.mpr h0) hdvd1) hnabs
    rcases lt_or_eq_of_le hgle with hglt | hgeq
    · -- the gcd fits int64_t: signed division is exact division
      have hg64 : toI64 ((Nat.gcd n.natAbs d : Nat) : Int) = (Nat.gcd n.natAbs d : Nat) := by
        apply toI64_eq_self
        unfold inI64
        constructor
        · omega
        · exact_mod_cast hglt
      rw [hg64]
      have hu : toU64 ((Nat.gcd n.natAbs d : Nat) : Int) = Nat.gcd n.natAbs d :=
        toU64_coe (by omega)
      rw [hu]
      have hdvdInt : ((Nat.gcd n.natAbs d : Nat) : Int) ∣ n := by
        rw [← Int.natAbs_dvd_natAbs]
        simpa using hdvd1
      have hcancel : ((Nat.gcd n.natAbs d : Nat) : Int) * (n.tdiv ((Nat.gcd n.natAbs d : Nat) : Int)) = n :=
        Int.mul_tdiv_cancel' hdvdInt
      have habs : (n.tdiv ((Nat.gcd n.natAbs d : Nat) : Int)).natAbs = n.natAbs / Nat.gcd n.natAbs d := by
        rw [Int.natAbs_tdiv]
        simp only [Int.natAbs_ofNat]
        rfl
      have hne : n.tdiv ((Nat.gcd n.natAbs d : Nat) : Int) ≠ 0 := by
        intro hz
        rw [hz, Int.mul_zero] at hcancel
        exact h0 hcancel.symm
      refine ⟨⟨?_, ?_, fun h => absurd h hne⟩, ?_, Nat.div_le_self _ _⟩
      · exact Nat.div_pos (Nat.le_of_dvd hd hdvd2) hgpos
      · show Nat.gcd (n.tdiv _).natAbs _ = 1
        rw [habs]
        exact Nat.coprime_div_gcd_div_gcd hgpos
      · -- the quotient stays in range
        rcases Nat.eq_or_lt_of_le hgpos with hg1 | hg2
        · have hg1' : Nat.gcd n.natAbs d = 1 := hg1.symm
          rw [hg1']
          simpa using hn
        · unfold inI64
          have hle2 : n.natAbs / Nat.gcd n.natAbs d ≤ n.natAbs / 2 :=
            Nat.div_le_div_left hg2 (by omega)
          have : (n.tdiv ((Nat.gcd n.natAbs d : Nat) : Int)).natAbs ≤ 2 ^ 62 := by
            rw [habs]
            omega
          omega
    · -- gcd = 2^63: only possible for numerator MIN_SIGNED; division yields 1
      have hmin : n = -(2 ^ 63) := by
        have : n.natAbs = 2 ^ 63 := by
          have := Nat.le_of_dvd (Int.natAbs_pos.mpr h0) hdvd1
          omega
        unfold inI64 at hn
        omega
      rw [hgeq, hmin]
      have h1 : toI64 ((2 ^ 63 : Nat) : Int) = -(2 ^ 63) := by decide
      have h2 : toU64 (-(2 ^ 63) : Int) = 2 ^ 63 := by decide
      have h3 : (-(2 ^ 63) : Int).tdiv (-(2 ^ 63)) = 1 := by decide
      rw [h1, h2, h3]
      have hdvd2' : 2 ^ 63 ∣ d := by rw [hgeq] at hdvd2; exact hdvd2
      refine ⟨⟨?_, ?_, fun h => absurd h one_ne_zero⟩, by decide, Nat.div_le_self _ _⟩
      · exact Nat.div_pos (Nat.le_of_dvd hd hdvd2') (by norm_num)
      · show Nat.gcd (1 : Int).natAbs _ = 1
        simp

theorem make_spec {num denom : Int} (hnum : inI64 num) (hdenom : inI64 denom) :
    Valid (Rational.make num denom) ∧ WF (Rational.make num denom) := by
  have main : ∀ (n : Int) (d : Nat), inI64 n → 0 < d → d < 2 ^ 64 →
      Valid (⟨(reduce n d).1, (reduce n d).2⟩ : Rational) ∧
        WF (⟨(reduce n d).1, (reduce n d).2⟩ : Rational) := by
    intro n d hn hd hdlt
    obtain ⟨hv, hr, hle⟩ := reduce_spec hn hd
    refine ⟨hv, hr, ?_⟩
    show (reduce n d).2 < 2 ^ 64
    omega
  unfold Rational.make
  by_cases h0 : denom = 0
  · simp only [if_pos h0]
    exact main 0 1 (by decide) (by decide) (by decide)
  · simp only [if_neg h0]
    by_cases hneg : denom < 0
    · simp only [if_pos hneg]
      refine main _ _ (inI64_toI64 _) ?_ (toU64_lt _)
      have heq : toU64 (-denom) = (-denom).toNat := by
        unfold toU64
        rw [Int.emod_eq_of_lt (by unfold inI64 at hdenom; omega)
          (by unfold inI64 at hdenom; omega)]
      rw [heq]
      unfold inI64 at hdenom
      omega
    · simp only [if_neg hneg]
      refine main _ _ hnum ?_ ?_ <;> unfold inI64 at hdenom <;> omega

theorem make_toI64_spec (a b : Int) :
    Valid (Rational.make (toI64 a) (toI64 b)) ∧ WF (Rational.make (toI64 a) (toI64 b)) :=
  make_spec (inI64_toI64 a) (inI64_toI64 b)

theorem add_safe_spec (x y : Rational) : Valid (add_safe x y) ∧ WF (add_safe x y) := by
  unfold add_safe
  dsimp only
  split_ifs <;> exact make_toI64_spec _ _

theorem add_spec (x y : Rational) : Valid (x.add y) ∧ WF (x.add y) := by
  unfold Rational.add
  split_ifs
  · exact add_safe_spec x y
  · exact make_toI64_spec _ _

theorem neg_spec (x : Rational) : Valid x.neg ∧ WF x.neg := by
  unfold Rational.neg
  exact make_toI64_spec _ _

theorem sub_spec (x y : Rational) : Valid (x.sub y) ∧ WF (x.sub y) := add_spec x y.neg

theorem mul_spec (x y : Rational) : Valid (x.mul y) ∧ WF (x.mul y) := by
  unfold Rational.mul
  split_ifs <;> exact make_toI64_spec _ _

theorem div_spec (x y : Rational) : Valid (x.div y) ∧ WF (x.div y) := by
  unfold Rational.div
  split_ifs
  · exact ⟨by decide, by decide⟩
  · exact mul_spec _ _

/-- **C2.** Every `Rational` produced by the default constructor, the
one-argument constructor, the two-argument constructor (for any `int64_t`
arguments), or returned by `+`, `-` (binary and unary), `*`, `/` (and hence
by the compound-assignment forms, which merely store these results)
satisfies the representation invariants: positive denominator, numerator
and denominator coprime, and the canonical form `0/1` when the numerator
is `0` (the sign being carried entirely by the `Int` numerator, the
denominator being a `Nat`). -/
theorem C2_invariants_hold :
    Valid (⟨0, 1⟩ : Rational) ∧
    (∀ n : Int, Valid (Rational.ofInt n)) ∧
    (∀ num denom : Int, inI64 num → inI64 denom → Valid (Rational.make num denom)) ∧
    (∀ x y : Rational, Valid (x.add y) ∧ Valid (x.sub y) ∧ Valid (x.mul y) ∧ Valid (x.div y)) ∧
    (∀ x : Rational, Valid x.neg) := by
  refine ⟨by decide, ?_, ?_, ?_, ?_⟩
  · intro n
    refine ⟨Nat.one_pos, ?_, fun _ => rfl⟩
    show Nat.gcd n.natAbs 1 = 1
    exact Nat.gcd_one_right _
  · intro num denom h1 h2
    exact (make_spec h1 h2).1
  · intro x y
    exact ⟨(add_spec x y).1, (sub_spec x y).1, (mul_spec x y).1, (div_spec x y).1⟩
  · intro x
    exact (neg_spec x).1

/-- Witness for C2: the two-argument constructor applied at `6/(-4)`. -/
theorem C2_invariants_hold_witness : Valid (Rational.make 6 (-4)) :=
  C2_invariants_hold.2.2.1 6 (-4) (by decide) (by decide)

/-! ### Claims settled by direct evaluation -/

/-- **C4.** Constructing with denominator `0` yields the canonical zero
`0/1` for every numerator, with no error. -/
theorem C4_zero_denominator_gives_zero (n : Int) :
    Rational.make n 0 = Rational.make 0 1 := by
  simp [Rational.make]

/-- **C10.** `str()` renders the numerator alone when the denominator is
`1`, else `"<numerator>/<denominator>"`; `str(make(6,3)) = "2"` and
`str(make(6,4)) = "3/2"`. -/
theorem C10_str_rendering :
    (∀ x : Rational, x.str =
      if x.denominator_ = 1 then toString x.numerator_
      else toString x.numerator_ ++ "/" ++ toString x.denominator_) ∧
    (Rational.make 6 3).str = "2" ∧ (Rational.make 6 4).str = "3/2" :=
  ⟨fun _ => rfl, by decide, by decide⟩

/-- **C9.** Two strictly positive rationals whose sum evaluates to the
canonical zero: in the unreduced fallback of addition the denominator
product `2^33 * 2^31 = 2^64` wraps to `0`, and the constructor coerces the
zero denominator to the value `0/1`. -/
theorem C9_positive_sum_wraps_to_zero :
    0 < (Rational.make (2 ^ 62 + 1) (2 ^ 33)).numerator_ ∧
    0 < (Rational.make (2 ^ 61 + 1) (2 ^ 31)).numerator_ ∧
    (Rational.make (2 ^ 62 + 1) (2 ^ 33)).add (Rational.make (2 ^ 61 + 1) (2 ^ 31)) =
      Rational.make 0 1 := by
  decide

/-- **C1** (failing-input evaluation).  The source's `operator<` compares the
cross products in `uint64_t` (the `int64_t` numerator is converted to
unsigned), so `make(-1,2) < make(1,2)` evaluates to `false`, although the
signed W-bit cross-multiplication the claim describes is `-2 < 2`, i.e.
true (second conjunct). -/
theorem C1_lt_is_unsigned_at_negative_input :
    (Rational.make (-1) 2).lt (Rational.make 1 2) = false ∧
    toI64 ((-1) * ((Rational.make 1 2).denominator_ : Int)) <
      toI64 (1 * ((Rational.make (-1) 2).denominator_ : Int)) := by
  decide

/-- **C3** (counterexample).  At `x = y = make(2^61+1, 2)` the reduced
route of §4.3 does not overflow (first two conjuncts: `a*sd2`, `c*sd1`
and their sum are representable, with `g = gcd(b,d) = 2`, `sd1 = sd2 = 1`),
so the claim predicts the normalized `(a*sd2 + c*sd1)/(b*sd2) =
make(2^62+2, 2)`; but `operator+` takes its naive fast path (none of
`a*d`, `c*b`, `b*d` overflows) and wraps `a*d + c*b = 2^63 + 4`, producing
a different (negative) result. -/
theorem C3_claim_fails_on_fast_path :
    inI64 ((2 ^ 61 + 1) * 1) ∧
    inI64 ((2 ^ 61 + 1) * 1 + (2 ^ 61 + 1) * 1) ∧
    Nat.gcd (Rational.make (2 ^ 61 + 1) 2).denominator_
      (Rational.make (2 ^ 61 + 1) 2).denominator_ = 2 ∧
    (Rational.make (2 ^ 61 + 1) 2).add (Rational.make (2 ^ 61 + 1) 2) ≠
      Rational.make ((2 ^ 61 + 1) * 1 + (2 ^ 61 + 1) * 1) 2 := by
  decide

/-- **C7** (counterexample).  `a = make(1, -2^63) = -1/2^63` has numerator
`-1 ≠ MIN_SIGNED`, yet `a + (-a) ≠ make(0,1)`: in `operator-()` the
`uint64_t` denominator `2^63` is converted to the constructor's `int64_t`
parameter, becoming negative, so the constructor negates the numerator a
second time and `-a = a`; the sum is `1/2^62`, not zero. -/
theorem C7_additive_inverse_fails_at_denominator_pow63 :
    (Rational.make 1 (-(2 ^ 63))).numerator_ ≠ i64Min ∧
    (Rational.make 1 (-(2 ^ 63))).add (Rational.make 1 (-(2 ^ 63))).neg ≠
      Rational.make 0 1 := by
  decide

/-- **C6.** For in-range signed operands, `mul_overflow(a, b)` returns true
iff the exact product is not representable as a signed 64-bit integer; it
returns true on the two `MIN_SIGNED` special cases and false whenever an
operand is zero. -/
theorem C6_mul_overflow_exact :
    (∀ a b : Int, inI64 a → inI64 b → (mul_overflow a b = true ↔ ¬ inI64 (a * b))) ∧
    mul_overflow i64Min (-1) = true ∧
    mul_overflow (-1) i64Min = true ∧
    (∀ a : Int, mul_overflow a 0 = false ∧ mul_overflow 0 a = false) := by
  refine ⟨fun a b ha hb => mul_overflow_iff ha hb, by decide, by decide, fun a => ?_⟩
  constructor <;> unfold mul_overflow <;> simp

/-- Witness for C6 at `a = 2^62`, `b = 4`: the product `2^64` overflows and
the predicate detects it. -/
theorem C6_mul_overflow_exact_witness : mul_overflow (2 ^ 62) 4 = true :=
  (C6_mul_overflow_exact.1 (2 ^ 62) 4 (by decide) (by decide)).mpr (by decide)

/-- **C5.** Division by a zero-numerator divisor returns the canonical zero
(no exception, no error state), in particular `make(3,4) / make(0,7) =
make(0,1)`; for a nonzero-numerator divisor `c/d`, division is
multiplication by the constructed reciprocal `Rational(d, c)` (the
`uint64_t` denominator `d` passing through the `int64_t` parameter
conversion, which is the identity whenever `d < 2^63`). -/
theorem C5_division_policy :
    (∀ x y : Rational, y.numerator_ = 0 → x.div y = Rational.make 0 1) ∧
    (Rational.make 3 4).div (Rational.make 0 7) = Rational.make 0 1 ∧
    (∀ x y : Rational, y.numerator_ ≠ 0 →
      x.div y = x.mul (Rational.make (toI64 (y.denominator_ : Int)) y.numerator_)) ∧
    (∀ x y : Rational, y.numerator_ ≠ 0 → y.denominator_ < 2 ^ 63 →
      x.div y = x.mul (Rational.make (y.denominator_ : Int) y.numerator_)) := by
  refine ⟨?_, by decide, ?_, ?_⟩
  · intro x y h
    unfold Rational.div
    rw [if_pos h]
    decide
  · intro x y h
    unfold Rational.div
    rw [if_neg h]
  · intro x y h hd
    unfold Rational.div
    rw [if_neg h]
    have hid : toI64 (y.denominator_ : Int) = (y.denominator_ : Int) := by
      apply toI64_eq_self
      unfold inI64
      constructor
      · omega
      · exact_mod_cast hd
    rw [hid]

/-- Witness for C5: both the zero-divisor branch and the reciprocal branch
at concrete inputs. -/
theorem C5_division_policy_witness :
    (Rational.make 1 2).div (Rational.make 0 5) = Rational.make 0 1 ∧
    (Rational.make 1 2).div (Rational.make 1 3) =
      (Rational.make 1 2).mul
        (Rational.make (((Rational.make 1 3).denominator_ : Nat) : Int)
          (Rational.make 1 3).numerator_) :=
  ⟨C5_division_policy.1 (Rational.make 1 2) (Rational.make 0 5) (by decide),
   C5_division_policy.2.2.2 (Rational.make 1 2) (Rational.make 1 3) (by decide) (by decide)⟩

/-! ### Additive inverse -/

theorem make_zero (z : Int) : Rational.make 0 z = (⟨0, 1⟩ : Rational) := by
  unfold Rational.make
  have hr : ∀ d : Nat, reduce 0 d = (0, 1) := fun d => by unfold reduce; simp
  have h0 : toI64 (-(0 : Int)) = 0 := by decide
  have h1 : toI64 (0 : Int) = 0 := by decide
  split_ifs <;> simp [h0, h1, hr]

theorem mul_overflow_one {a : Int} (ha : inI64 a) : mul_overflow a 1 = false := by
  have h := mul_overflow_iff ha (show inI64 1 by decide)
  cases hmo : mul_overflow a 1
  · rfl
  · exfalso
    apply h.mp hmo
    rwa [mul_one]

theorem neg_eq_of_small {x : Rational} (hv : Valid x) (hmin : x.numerator_ ≠ i64Min)
    (hn : inI64 x.numerator_) (hd : x.denominator_ < 2 ^ 63) :
    x.neg = ⟨-x.numerator_, x.denominator_⟩ := by
  obtain ⟨hdpos, hgcd, hzero⟩ := hv
  unfold Rational.neg
  have hni : inI64 (-x.numerator_) := by
    unfold inI64 at hn ⊢
    unfold i64Min at hmin
    omega
  have hdi : inI64 (x.denominator_ : Int) := by
    unfold inI64
    constructor
    · omega
    · exact_mod_cast hd
  rw [toI64_eq_self hni, toI64_eq_self hdi]
  unfold Rational.make
  have hc0 : ¬((x.denominator_ : Int) = 0) := by
    intro h
    rw [Int.natCast_eq_zero] at h
    omega
  have hc1 : ¬((x.denominator_ : Int) < 0) := by
    intro h
    have := Int.natCast_nonneg x.denominator_
    omega
  simp only [if_neg hc0, if_neg hc1, Int.toNat_natCast]
  have hred : reduce (-x.numerator_) x.denominator_ = (-x.numerator_, x.denominator_) := by
    by_cases h0 : x.numerator_ = 0
    · have hd1 := hzero h0
      rw [h0, hd1]
      unfold reduce
      simp
    · unfold reduce
      rw [if_neg (neg_ne_zero.mpr h0), Int.natAbs_neg, hgcd]
      dsimp only
      have e1 : ((1 : Nat) : Int) = 1 := by norm_num
      have e2 : toI64 (1 : Int) = 1 := by decide
      have e3 : toU64 (1 : Int) = 1 := by decide
      rw [e1, e2, e3, Int.tdiv_one, Nat.div_one]
  rw [hred]

/-- **C7** (amended).  For every representable rational (a value satisfying
the representation invariants, with fields in machine range) whose
numerator is not `MIN_SIGNED` and whose denominator is below `2^63`,
`a + (-a) = make(0,1)`. -/
theorem C7_additive_inverse :
    ∀ x : Rational, Valid x → WF x → x.numerator_ ≠ i64Min → x.denominator_ < 2 ^ 63 →
      x.add x.neg = Rational.make 0 1 := by
  intro x hv hw hmin hd
  rw [neg_eq_of_small hv hmin hw.1 hd, make_zero]
  unfold Rational.add
  have hni : inI64 (-x.numerator_) := by
    have h1 := hw.1
    unfold inI64 at h1 ⊢
    unfold i64Min at hmin
    omega
  split_ifs with hguard
  · -- the add_safe route
    unfold add_safe
    dsimp only
    rw [Nat.gcd_self, Nat.div_self hv.1]
    have e1 : ((1 : Nat) : Int) = 1 := by norm_num
    have e2 : toI64 (1 : Int) = 1 := by decide
    rw [e1, e2]
    rw [if_neg (by rw [mul_overflow_one hw.1]; exact Bool.false_ne_true)]
    rw [if_neg (by rw [mul_overflow_one hni]; exact Bool.false_ne_true)]
    have ht1 : toI64 (x.numerator_ * 1) = x.numerator_ := by
      rw [mul_one]
      exact toI64_eq_self hw.1
    have ht2 : toI64 (-x.numerator_ * 1) = -x.numerator_ := by
      rw [mul_one]
      exact toI64_eq_self hni
    rw [ht1, ht2]
    have hao : add_overflow x.numerator_ (-x.numerator_) = false := by
      unfold add_overflow
      have hz : x.numerator_ + -x.numerator_ = 0 := by ring
      rw [hz]
      have e3 : toI64 (0 : Int) = 0 := by decide
      rw [e3]
      dsimp only
      split_ifs with h1 h2
      · exfalso; omega
      · exfalso; omega
      · rfl
    rw [if_neg (by rw [hao]; exact Bool.false_ne_true)]
    have hz : toI64 (x.numerator_ + -x.numerator_) = 0 := by
      have : x.numerator_ + -x.numerator_ = 0 := by ring
      rw [this]
      decide
    rw [hz, make_zero]
  · -- the naive fast path
    have hz : toI64 (x.numerator_ * (x.denominator_ : Int) +
        -x.numerator_ * (x.denominator_ : Int)) = 0 := by
      have : x.numerator_ * (x.denominator_ : Int) +
          -x.numerator_ * (x.denominator_ : Int) = 0 := by ring
      rw [this]
      decide
    rw [hz, make_zero]

/-- Witness for the amended C7 at `x = make(1,2)`. -/
theorem C7_additive_inverse_witness :
    (Rational.make 1 2).add (Rational.make 1 2).neg = Rational.make 0 1 :=
  C7_additive_inverse (Rational.make 1 2) (by decide) (by decide) (by decide) (by decide)

/-! ### Addition follows the flat algorithm; commutativity -/

theorem add_safe_eq_spec (x y : Rational) : add_safe x y = addSafeSpec x y := by
  unfold add_safe addSafeSpec
  dsimp only
  by_cases h1 : mul_overflow x.numerator_
      (toI64 ((y.denominator_ / Nat.gcd x.denominator_ y.denominator_ : Nat) : Int)) = true
  · rw [if_pos h1, if_pos (Or.inl h1)]
  · rw [if_neg h1]
    by_cases h2 : mul_overflow y.numerator_
        (toI64 ((x.denominator_ / Nat.gcd x.denominator_ y.denominator_ : Nat) : Int)) = true
    · rw [if_pos h2, if_pos (Or.inr (Or.inl h2))]
    · rw [if_neg h2]
      by_cases h3 : add_overflow
          (toI64 (x.numerator_ * ((y.denominator_ / Nat.gcd x.denominator_ y.denominator_ : Nat) : Int)))
          (toI64 (y.numerator_ * ((x.denominator_ / Nat.gcd x.denominator_ y.denominator_ : Nat) : Int))) = true
      · rw [if_pos h3, if_pos (Or.inr (Or.inr h3))]
      · rw [if_neg h3, if_neg (by rintro (h | h | h); exacts [h1 h, h2 h, h3 h])]
        rw [toI64_add_toI64]

set_option maxRecDepth 8000 in
theorem add_eq_addSpec (x y : Rational) : x.add y = addSpec x y := by
  unfold Rational.add addSpec
  by_cases h : mul_overflow x.numerator_ (toI64 (y.denominator_ : Int)) = true ∨
      mul_overflow y.numerator_ (toI64 (x.denominator_ : Int)) = true ∨
      mul_overflow (toI64 (x.denominator_ : Int)) (toI64 (y.denominator_ : Int)) = true
  · rw [if_pos (by rcases h with h | h | h <;> simp [h]), if_pos h]
    exact add_safe_eq_spec x y
  · have hA : mul_overflow x.numerator_ (toI64 (y.denominator_ : Int)) = false := by
      cases hc : mul_overflow x.numerator_ (toI64 (y.denominator_ : Int))
      · rfl
      · exact absurd (Or.inl hc) h
    have hB : mul_overflow y.numerator_ (toI64 (x.denominator_ : Int)) = false := by
      cases hc : mul_overflow y.numerator_ (toI64 (x.denominator_ : Int))
      · rfl
      · exact absurd (Or.inr (Or.inl hc)) h
    have hC : mul_overflow (toI64 (x.denominator_ : Int)) (toI64 (y.denominator_ : Int)) = false := by
      cases hc : mul_overflow (toI64 (x.denominator_ : Int)) (toI64 (y.denominator_ : Int))
      · rfl
      · exact absurd (Or.inr (Or.inr hc)) h
    rw [if_neg h, if_neg (by rw [hA, hB, hC]; simp)]

theorem add_overflow_comm (a b : Int) : add_overflow a b = add_overflow b a := by
  unfold add_overflow
  dsimp only
  rw [Int.add_comm b a]
  split_ifs <;> first | rfl | tauto

theorem mul_overflow_comm {a b : Int} (ha : inI64 a) (hb : inI64 b) :
    mul_overflow a b = mul_overflow b a := by
  have h1 := mul_overflow_iff ha hb
  have h2 := mul_overflow_iff hb ha
  rw [mul_comm b a] at h2
  by_cases hin : inI64 (a * b)
  · have e1 : mul_overflow a b = false := by
      cases h : mul_overflow a b
      · rfl
      · exact absurd hin (h1.mp h)
    have e2 : mul_overflow b a = false := by
      cases h : mul_overflow b a
      · rfl
      · exact absurd hin (h2.mp h)
    rw [e1, e2]
  · rw [h1.mpr hin, h2.mpr hin]

theorem denom_swap (dx dy : Nat) :
    dx * (dy / Nat.gcd dx dy) = dy * (dx / Nat.gcd dx dy) := by
  rw [← Nat.mul_div_assoc dx (Nat.gcd_dvd_right dx dy),
    ← Nat.mul_div_assoc dy (Nat.gcd_dvd_left dx dy), Nat.mul_comm dy dx]

theorem addSafeSpec_comm (x y : Rational) : addSafeSpec x y = addSafeSpec y x := by
  unfold addSafeSpec
  dsimp only
  rw [Nat.gcd_comm y.denominator_ x.denominator_]
  rw [add_overflow_comm
    (toI64 (y.numerator_ * ((x.denominator_ / Nat.gcd x.denominator_ y.denominator_ : Nat) : Int)))
    (toI64 (x.numerator_ * ((y.denominator_ / Nat.gcd x.denominator_ y.denominator_ : Nat) : Int)))]
  have eN : y.numerator_ * (x.denominator_ : Int) + x.numerator_ * (y.denominator_ : Int)
      = x.numerator_ * (y.denominator_ : Int) + y.numerator_ * (x.denominator_ : Int) := by ring
  have eD : (y.denominator_ : Int) * (x.denominator_ : Int)
      = (x.denominator_ : Int) * (y.denominator_ : Int) := by ring
  have eSN : y.numerator_ * ((x.denominator_ / Nat.gcd x.denominator_ y.denominator_ : Nat) : Int)
        + x.numerator_ * ((y.denominator_ / Nat.gcd x.denominator_ y.denominator_ : Nat) : Int)
      = x.numerator_ * ((y.denominator_ / Nat.gcd x.denominator_ y.denominator_ : Nat) : Int)
        + y.numerator_ * ((x.denominator_ / Nat.gcd x.denominator_ y.denominator_ : Nat) : Int) := by
    ring
  have eSD : (y.denominator_ : Int) *
        ((x.denominator_ / Nat.gcd x.denominator_ y.denominator_ : Nat) : Int)
      = (x.denominator_ : Int) *
        ((y.denominator_ / Nat.gcd x.denominator_ y.denominator_ : Nat) : Int) := by
    exact_mod_cast (denom_swap x.denominator_ y.denominator_).symm
  rw [eN, eD, eSN, eSD]
  apply if_congr ?_ rfl rfl
  constructor
  · rintro (h | h | h)
    exacts [Or.inr (Or.inl h), Or.inl h, Or.inr (Or.inr h)]
  · rintro (h | h | h)
    exacts [Or.inr (Or.inl h), Or.inl h, Or.inr (Or.inr h)]

theorem addSpec_comm (x y : Rational) : addSpec x y = addSpec y x := by
  unfold addSpec
  rw [mul_overflow_comm (inI64_toI64 (y.denominator_ : Int)) (inI64_toI64 (x.denominator_ : Int))]
  have eN : y.numerator_ * (x.denominator_ : Int) + x.numerator_ * (y.denominator_ : Int)
      = x.numerator_ * (y.denominator_ : Int) + y.numerator_ * (x.denominator_ : Int) := by ring
  have eD : (y.denominator_ : Int) * (x.denominator_ : Int)
      = (x.denominator_ : Int) * (y.denominator_ : Int) := by ring
  rw [eN, eD]
  apply if_congr ?_ (addSafeSpec_comm x y) rfl
  constructor
  · rintro (h | h | h)
    exacts [Or.inr (Or.inl h), Or.inl h, Or.inr (Or.inr h)]
  · rintro (h | h | h)
    exacts [Or.inr (Or.inl h), Or.inl h, Or.inr (Or.inr h)]

theorem add_comm_all (x y : Rational) : x.add y = y.add x := by
  rw [add_eq_addSpec, add_eq_addSpec, addSpec_comm]

theorem mul_comm_wf {x y : Rational} (hx : WF x) (hy : WF y) : x.mul y = y.mul x := by
  unfold Rational.mul
  dsimp only
  rw [mul_overflow_comm hy.1 hx.1,
    mul_overflow_comm (inI64_toI64 (y.denominator_ : Int)) (inI64_toI64 (x.denominator_ : Int))]
  have eFN : y.numerator_ * x.numerator_ = x.numerator_ * y.numerator_ := by ring
  have eD : (y.denominator_ : Int) * (x.denominator_ : Int)
      = (x.denominator_ : Int) * (y.denominator_ : Int) := by ring
  have eSN : toI64 ((toU64 y.numerator_ / Nat.gcd y.numerator_.natAbs x.denominator_ : Nat) : Int) *
        toI64 ((toU64 x.numerator_ / Nat.gcd x.numerator_.natAbs y.denominator_ : Nat) : Int)
      = toI64 ((toU64 x.numerator_ / Nat.gcd x.numerator_.natAbs y.denominator_ : Nat) : Int) *
        toI64 ((toU64 y.numerator_ / Nat.gcd y.numerator_.natAbs x.denominator_ : Nat) : Int) := by
    ring
  have eSD : ((y.denominator_ / Nat.gcd x.numerator_.natAbs y.denominator_ : Nat) : Int) *
        ((x.denominator_ / Nat.gcd y.numerator_.natAbs x.denominator_ : Nat) : Int)
      = ((x.denominator_ / Nat.gcd y.numerator_.natAbs x.denominator_ : Nat) : Int) *
        ((y.denominator_ / Nat.gcd x.numerator_.natAbs y.denominator_ : Nat) : Int) := by
    ring
  rw [eFN, eD, eSN, eSD]

/-- **C3** (amended).  `operator+` equals the flat algorithm `addSpec`: the
§4.3 reduced route runs exactly when one of the three naive cross-product
overflow checks fires, and inside it the three early-return fallbacks
collapse to one disjunctive guard, the safe numerator being the wrapped
sum of the wrapped terms. -/
theorem C3_add_follows_flat_algorithm (x y : Rational) : x.add y = addSpec x y :=
  add_eq_addSpec x y

/-- **C8.** Addition and multiplication are commutative (for all values
whose fields are in machine range; addition is commutative for every pair
of states). -/
theorem C8_add_mul_commutative :
    ∀ x y : Rational, WF x → WF y → x.add y = y.add x ∧ x.mul y = y.mul x :=
  fun x y hx hy => ⟨add_comm_all x y, mul_comm_wf hx hy⟩

/-- Witness for C8 at `2/3` and `5/7`. -/
theorem C8_add_mul_commutative_witness :
    (Rational.make 2 3).add (Rational.make 5 7) = (Rational.make 5 7).add (Rational.make 2 3) ∧
    (Rational.make 2 3).mul (Rational.make 5 7) = (Rational.make 5 7).mul (Rational.make 2 3) :=
  C8_add_mul_commutative (Rational.make 2 3) (Rational.make 5 7) (by decide) (by decide)

/-- The end-to-end example of spec §8, evaluated on the embedding: with
`r1 = 1/2` and `r2 = 1/3`, all four arithmetic results and the comparison
agree with the spec. -/
theorem spec_end_to_end_example :
    (Rational.make 1 2).add (Rational.make 1 3) = Rational.make 5 6 ∧
    (Rational.make 1 2).sub (Rational.make 1 3) = Rational.make 1 6 ∧
    (Rational.make 1 2).mul (Rational.make 1 3) = Rational.make 1 6 ∧
    (Rational.make 1 2).div (Rational.make 1 3) = Rational.make 3 2 ∧
    (Rational.make 1 2).gt (Rational.make 1 3) = true := by
  decide
